import Mathlib

/-!
Verification of the session-history-to-tree reconstruction engine of the
HISTORY-TREE-EXTENSION repository (src/background.js).

The definitions below are a shallow embedding of the JavaScript source:
every function mirrors the homonymous method of `TabHistoryTracker`
(`createHistoryEntry`, `detectBackNavigation`, `detectForwardNavigation`,
`handleBackNavigation`, `handleForwardNavigation`, `handleNewNavigation`,
`updateTabHistory`, `buildTreeFromSessionHistory`, `createTreeNode`,
`handleTabClose`, clearClosedTabs message handling).  JavaScript numbers are
modelled as `Nat` (all indices and timestamps in the source are
non-negative), JavaScript's in-place mutation of the per-tab record becomes
explicit state passing on a `TabHistory` value, and the mutable
"current branch" of node references used by `buildTreeFromSessionHistory`
becomes a list of open `Frame`s whose finished subtrees are attached when a
frame leaves the branch (the resulting tree is the same, since in the
source a node's children are completed exactly while it sits on the
branch).
-/

/-- Snapshot of host-reported navigation capability,
`{historyLength, canGoBack, canGoForward, currentState}` as returned by
`getTabHistoryInfo`. -/
structure NavInfo where
  historyLength : Nat
  canGoBack : Bool
  canGoForward : Bool
  currentState : Option String

/-- The default returned by `getTabHistoryInfo` when the probe fails. -/
def defaultNavInfo : NavInfo :=
  { historyLength := 1, canGoBack := false, canGoForward := false,
    currentState := none }

/-- One visit record, as produced by `createHistoryEntry`. -/
structure HistoryEntry where
  url : String
  title : String
  timestamp : Nat
  kind : String
  historyLength : Nat
  canGoBack : Bool
  canGoForward : Bool
  state : Option String

/-- A node of the derived display tree, as produced by `createTreeNode`:
entry, children, level, isCurrent. -/
inductive TreeNode : Type where
  | mk (entry : HistoryEntry) (children : List TreeNode) (level : Nat)
      (isCurrent : Bool)

def TreeNode.entry : TreeNode → HistoryEntry
  | .mk e _ _ _ => e

def TreeNode.children : TreeNode → List TreeNode
  | .mk _ cs _ _ => cs

def TreeNode.level : TreeNode → Nat
  | .mk _ _ lv _ => lv

def TreeNode.isCurrent : TreeNode → Bool
  | .mk _ _ _ b => b

/-- The per-tab record stored in `tabHistories`:
`{sessionHistory, currentIndex, tree, lastUpdated, isClosed}` plus the
`closedAt` field added on closure. -/
structure TabHistory where
  sessionHistory : List HistoryEntry
  currentIndex : Nat
  tree : TreeNode
  lastUpdated : Nat
  isClosed : Bool
  closedAt : Option Nat

/-- Modelled from the spec: the host platform's URL parser
(`new URL(url).hostname`), which `getDomainFromUrl` calls and which is not
part of the repository's sources.  For the `http:`/`https:` URLs the
tracker admits, the WHATWG parser skips the slashes after the scheme,
reads the authority up to a path/query/fragment delimiter, drops any
userinfo and port, and fails (here `none`) when the resulting host is
empty.  Case normalisation and punycode are omitted; all concrete inputs
used below are lowercase ASCII. -/
def parsedHost (url : String) : Option String :=
  let cs := url.data
  let rest :=
    if "https:".data.isPrefixOf cs then some (cs.drop 6)
    else if "http:".data.isPrefixOf cs then some (cs.drop 5)
    else none
  match rest with
  | none => none
  | some r =>
    let r2 := r.dropWhile (fun c => c == '/' || c == '\\')
    let auth := r2.takeWhile
      (fun c => !(c == '/' || c == '\\' || c == '?' || c == '#'))
    let afterAt :=
      if auth.contains '@' then
        (auth.reverse.takeWhile (fun c => c != '@')).reverse
      else auth
    let host := afterAt.takeWhile (fun c => c != ':')
    if host.isEmpty then none else some (String.mk host)

/-- `getDomainFromUrl`: hostname of the URL, or the whole URL string when
the platform parser throws (the `catch` branch). -/
def getDomainFromUrl (url : String) : String :=
  match parsedHost url with
  | some h => h
  | none => url

/-- `createHistoryEntry(url, title, type, timestamp, historyInfo)`.
An absent title is `none` (JS `undefined`) or `some ""` (both falsy), in
which case the title falls back to `getDomainFromUrl(url)`.  JS
`historyInfo.historyLength || 1` maps the falsy `0` to `1`. -/
def createHistoryEntry (url : String) (title : Option String)
    (kind : String) (timestamp : Nat) (hi : NavInfo) : HistoryEntry :=
  { url := url,
    title :=
      match title with
      | none => getDomainFromUrl url
      | some s => if s = "" then getDomainFromUrl url else s,
    timestamp := timestamp,
    kind := kind,
    historyLength := if hi.historyLength = 0 then 1 else hi.historyLength,
    canGoBack := hi.canGoBack,
    canGoForward := hi.canGoForward,
    state := hi.currentState }

/-- `createTreeNode(entry, level, isCurrent)`. -/
def createTreeNode (e : HistoryEntry) (level : Nat) (isCurrent : Bool) :
    TreeNode :=
  .mk e [] level isCurrent

/-- `detectBackNavigation`: the log has at least two entries, a previous
entry exists whose url equals the new url, and the host reports
`canGoBack`. -/
def detectBackNavigation (h : TabHistory) (newUrl : String)
    (hi : NavInfo) : Bool :=
  if h.sessionHistory.length < 2 then false
  else if 0 < h.currentIndex then
    match h.sessionHistory[h.currentIndex - 1]? with
    | some prev => prev.url == newUrl && hi.canGoBack
    | none => false
  else false

/-- `detectForwardNavigation`: a next entry exists whose url equals the
new url and the host reports `canGoForward`. -/
def detectForwardNavigation (h : TabHistory) (newUrl : String)
    (hi : NavInfo) : Bool :=
  if h.sessionHistory.length - 1 ≤ h.currentIndex then false
  else
    match h.sessionHistory[h.currentIndex + 1]? with
    | some next => next.url == newUrl && hi.canGoForward
    | none => false

/-- `handleBackNavigation`: `currentIndex = Math.max(0, currentIndex - 1)`
(truncated subtraction on `Nat`). -/
def handleBackNavigation (h : TabHistory) : TabHistory :=
  { h with currentIndex := h.currentIndex - 1 }

/-- `handleForwardNavigation`:
`currentIndex = Math.min(length - 1, currentIndex + 1)`. -/
def handleForwardNavigation (h : TabHistory) : TabHistory :=
  { h with currentIndex := min (h.sessionHistory.length - 1) (h.currentIndex + 1) }

/-- `handleNewNavigation`: a refresh (same url as the current entry) is a
no-op; otherwise forward history past `currentIndex` is truncated, a new
entry is appended and `currentIndex` moves to the new last index. -/
def handleNewNavigation (h : TabHistory) (url : String)
    (title : Option String) (kind : String) (now : Nat) (hi : NavInfo) :
    TabHistory :=
  let isRefresh :=
    match h.sessionHistory[h.currentIndex]? with
    | some cur => cur.url == url
    | none => false
  if isRefresh then h
  else
    let truncated :=
      if h.currentIndex < h.sessionHistory.length - 1 then
        h.sessionHistory.take (h.currentIndex + 1)
      else h.sessionHistory
    let newEntry := createHistoryEntry url title kind now hi
    { h with
      sessionHistory := truncated ++ [newEntry],
      currentIndex := (truncated ++ [newEntry]).length - 1 }

/-- The index of the first node in the current branch with a matching url:
`currentBranch.findIndex(node => node.entry.url === entry.url)` of
`buildTreeFromSessionHistory`, written as plain recursion so the proofs
can unfold it. -/
def findIdxA {α : Type} (pred : α → Bool) : List α → Option Nat
  | [] => none
  | a :: as => if pred a then some 0 else (findIdxA pred as).map (· + 1)

/-- An open node of the current branch during the rebuild walk: the node's
fields, with `children` holding the subtrees already completed under it. -/
structure Frame where
  entry : HistoryEntry
  children : List TreeNode
  level : Nat
  isCurrent : Bool

/-- Close an open frame into a tree node. -/
def frameToNode (f : Frame) : TreeNode :=
  .mk f.entry f.children f.level f.isCurrent

/-- Close a root-first list of open frames into a single tree: each
frame's node receives the node of the frame below it as its last child. -/
def collapseList : List Frame → Option TreeNode
  | [] => none
  | f :: rest =>
    match collapseList rest with
    | none => some (frameToNode f)
    | some n => some (frameToNode { f with children := f.children ++ [n] })

/-- Attach a completed subtree as the last child of the last frame. -/
def attachLast : List Frame → TreeNode → List Frame
  | [], _ => []
  | [f], n => [{ f with children := f.children ++ [n] }]
  | f :: rest, n => f :: attachLast rest n

/-- The flag update of the truncation case:
`currentBranch.forEach((node, idx) => node.isCurrent = (idx === existingIndex && isCurrent))`,
with `idx` threaded explicitly. -/
def setFlags : List Frame → Nat → Nat → Bool → List Frame
  | [], _, _, _ => []
  | f :: fs, idx, p, isCur =>
    { f with isCurrent := idx == p && isCur } :: setFlags fs (idx + 1) p isCur

/-- One iteration of the loop of `buildTreeFromSessionHistory`: either a
branch-local url match truncates the branch and rewrites the retained
flags, or a new node is appended as child of the branch tip. -/
def stepFrame (fs : List Frame) (e : HistoryEntry) (isCur : Bool) :
    List Frame :=
  match findIdxA (fun f => f.entry.url == e.url) fs with
  | some p =>
    let kept := fs.take (p + 1)
    let kept2 :=
      match collapseList (fs.drop (p + 1)) with
      | none => kept
      | some sub => attachLast kept sub
    setFlags kept2 0 p isCur
  | none => fs ++ [⟨e, [], fs.length, isCur⟩]

/-- The loop of `buildTreeFromSessionHistory` over `entries[1..]`, with
`i` the log position of the head of the remaining list. -/
def processEntries : List HistoryEntry → Nat → Nat → List Frame → List Frame
  | [], _, _, fs => fs
  | e :: es, i, ci, fs => processEntries es (i + 1) ci (stepFrame fs e (i == ci))

/-- `buildTreeFromSessionHistory` as a function of
`(sessionHistory, currentIndex)`: `none` on an empty log (the source
returns without touching the previous tree), otherwise the fully linked
root. -/
def buildTree (entries : List HistoryEntry) (ci : Nat) : Option TreeNode :=
  match entries with
  | [] => none
  | e0 :: rest => collapseList (processEntries rest 1 ci [⟨e0, [], 0, ci == 0⟩])

/-- `buildTreeFromSessionHistory` as a state step on the per-tab record:
it overwrites `tree` with the rebuild, and leaves the record untouched
when the log is empty. -/
def buildTreeStep (h : TabHistory) : TabHistory :=
  match buildTree h.sessionHistory h.currentIndex with
  | none => h
  | some t => { h with tree := t }

/-- `updateTabHistory` on an existing record: classify (back first, then
forward, then `handleNewNavigation`, whose first check is the refresh),
stamp `lastUpdated`, then rebuild the tree. -/
def updateTabHistory (h : TabHistory) (url : String) (title : Option String)
    (kind : String) (hi : NavInfo) (now : Nat) : TabHistory :=
  buildTreeStep
    { (if detectBackNavigation h url hi then handleBackNavigation h
       else if detectForwardNavigation h url hi then handleForwardNavigation h
       else handleNewNavigation h url title kind now hi) with
      lastUpdated := now }

/-- One inbound navigation event `(url, title, type, historyInfo)` with
its arrival time. -/
structure NavUpdate where
  url : String
  title : Option String
  kind : String
  info : NavInfo
  now : Nat

def applyUpdate (h : TabHistory) (u : NavUpdate) : TabHistory :=
  updateTabHistory h u.url u.title u.kind u.info u.now

def applyUpdates (h : TabHistory) (us : List NavUpdate) : TabHistory :=
  us.foldl applyUpdate h

/-- The bootstrap record of `initializeTabHistory` / the missing-record
branch of `updateTabHistory`: a single `initial` entry at the tab's
creation time, `currentIndex = 0`, and a one-node tree. -/
def initTabHistory (url : String) (title : Option String)
    (creationTime now : Nat) : TabHistory :=
  let e := createHistoryEntry url title "initial" creationTime defaultNavInfo
  { sessionHistory := [e], currentIndex := 0,
    tree := createTreeNode e 0 true, lastUpdated := now,
    isClosed := false, closedAt := none }

/-- JS `Map.get`, on an insertion-ordered association list. -/
def lookupA {α : Type} : List (Nat × α) → Nat → Option α
  | [], _ => none
  | (k, v) :: rest, key => if k = key then some v else lookupA rest key

/-- JS `Map.set`: update the existing key in place, or append. -/
def setA {α : Type} : List (Nat × α) → Nat → α → List (Nat × α)
  | [], key, v => [(key, v)]
  | (k, w) :: rest, key, v =>
    if k = key then (k, v) :: rest else (k, w) :: setA rest key v

/-- JS `Map.delete`. -/
def eraseA {α : Type} : List (Nat × α) → Nat → List (Nat × α)
  | [], _ => []
  | (k, w) :: rest, key =>
    if k = key then rest else (k, w) :: eraseA rest key

/-- The ambient maps of `TabHistoryTracker`: `tabHistories`,
`closedTabHistories`, `tabCreationTimes`. -/
structure Tracker where
  tabHistories : List (Nat × TabHistory)
  closedTabHistories : List (Nat × TabHistory)
  tabCreationTimes : List (Nat × Nat)

/-- `handleTabClose(tabId)`: move the record (spread, plus
`closedAt: Date.now()` and `isClosed: true`) into `closedTabHistories`
and remove the active bookkeeping; a no-op on the maps when the tab is
untracked. -/
def handleTabClose (tr : Tracker) (tabId : Nat) (now : Nat) : Tracker :=
  match lookupA tr.tabHistories tabId with
  | some th =>
    { tr with
      closedTabHistories := setA tr.closedTabHistories tabId { th with closedAt := some now, isClosed := true },
      tabHistories := eraseA tr.tabHistories tabId,
      tabCreationTimes := eraseA tr.tabCreationTimes tabId }
  | none => tr

/-- The `clearClosedTabs` message: `closedTabHistories.clear()` only. -/
def clearClosedTabs (tr : Tracker) : Tracker :=
  { tr with closedTabHistories := [] }

/-- No two adjacent entries of the log share a url (exact string match). -/
def adjDistinct : List HistoryEntry → Bool
  | a :: b :: rest => (a.url != b.url) && adjDistinct (b :: rest)
  | _ => true

mutual

/-- Number of nodes of the tree with `isCurrent = true`. -/
def countCur : TreeNode → Nat
  | .mk _ cs _ b => (if b then 1 else 0) + countCurL cs

def countCurL : List TreeNode → Nat
  | [] => 0
  | t :: ts => countCur t + countCurL ts

end

mutual

/-- Every node's `level` equals its distance from the enclosing root:
the node itself carries `d`, its children satisfy the same at `d + 1`. -/
def levelsOK : TreeNode → Nat → Bool
  | .mk _ cs lv _, d => (lv == d) && levelsOKL cs (d + 1)

def levelsOKL : List TreeNode → Nat → Bool
  | [], _ => true
  | t :: ts, d => levelsOK t d && levelsOKL ts d

end

/-- Current-node count of one open frame (its own flag plus its finished
subtrees). -/
def frameCur (f : Frame) : Nat :=
  (if f.isCurrent then 1 else 0) + countCurL f.children

/-- Current-node count of a branch of open frames. -/
def framesCur : List Frame → Nat
  | [] => 0
  | f :: fs => frameCur f + framesCur fs

/-- Current-node count contributed by finished subtrees only. -/
def childSum : List Frame → Nat
  | [] => 0
  | f :: fs => countCurL f.children + childSum fs

/-- Level correctness of one open frame sitting at depth `d`. -/
def frameLevOK (f : Frame) (d : Nat) : Bool :=
  (f.level == d) && levelsOKL f.children (d + 1)

/-- Level correctness of a root-first branch whose head sits at depth
`d`. -/
def framesLev : List Frame → Nat → Bool
  | [], _ => true
  | f :: fs, d => frameLevOK f d && framesLev fs (d + 1)

@[simp]
theorem buildTreeStep_sessionHistory (h : TabHistory) :
    (buildTreeStep h).sessionHistory = h.sessionHistory := by
  unfold buildTreeStep
  cases buildTree h.sessionHistory h.currentIndex <;> rfl

@[simp]
theorem buildTreeStep_currentIndex (h : TabHistory) :
    (buildTreeStep h).currentIndex = h.currentIndex := by
  unfold buildTreeStep
  cases buildTree h.sessionHistory h.currentIndex <;> rfl

@[simp]
theorem buildTreeStep_lastUpdated (h : TabHistory) :
    (buildTreeStep h).lastUpdated = h.lastUpdated := by
  unfold buildTreeStep
  cases buildTree h.sessionHistory h.currentIndex <;> rfl

/-- C5: The tree rebuild is deterministic and idempotent: for any fixed
(entries, currentIndex) with entries non-empty, running
buildTreeFromSessionHistory twice produces structurally identical trees
(same shape, same entry references at each position, same level values,
same isCurrent flags).  Stated as idempotence of the rebuild step on the
per-tab record (the rebuild is a pure function of the log, so the second
run recomputes exactly the first tree); the statement holds without the
non-emptiness restriction, the empty case being the documented no-op. -/
theorem buildTreeStep_idempotent (h : TabHistory) :
    buildTreeStep (buildTreeStep h) = buildTreeStep h := by
  cases hb : buildTree h.sessionHistory h.currentIndex with
  | none => simp [buildTreeStep, hb]
  | some t => simp [buildTreeStep, hb]

theorem update_back_sessionHistory (h : TabHistory) (url : String)
    (title : Option String) (kind : String) (hi : NavInfo) (now : Nat)
    (hb : detectBackNavigation h url hi = true) :
    (updateTabHistory h url title kind hi now).sessionHistory = h.sessionHistory := by
  simp [updateTabHistory, hb, handleBackNavigation]

theorem update_back_currentIndex (h : TabHistory) (url : String)
    (title : Option String) (kind : String) (hi : NavInfo) (now : Nat)
    (hb : detectBackNavigation h url hi = true) :
    (updateTabHistory h url title kind hi now).currentIndex = h.currentIndex - 1 := by
  simp [updateTabHistory, hb, handleBackNavigation]

theorem update_forward_sessionHistory (h : TabHistory) (url : String)
    (title : Option String) (kind : String) (hi : NavInfo) (now : Nat)
    (hb : detectBackNavigation h url hi = false)
    (hf : detectForwardNavigation h url hi = true) :
    (updateTabHistory h url title kind hi now).sessionHistory = h.sessionHistory := by
  simp [updateTabHistory, hb, hf, handleForwardNavigation]

theorem update_forward_currentIndex (h : TabHistory) (url : String)
    (title : Option String) (kind : String) (hi : NavInfo) (now : Nat)
    (hb : detectBackNavigation h url hi = false)
    (hf : detectForwardNavigation h url hi = true) :
    (updateTabHistory h url title kind hi now).currentIndex
      = min (h.sessionHistory.length - 1) (h.currentIndex + 1) := by
  simp [updateTabHistory, hb, hf, handleForwardNavigation]

theorem update_new_sessionHistory (h : TabHistory) (url : String)
    (title : Option String) (kind : String) (hi : NavInfo) (now : Nat)
    (hb : detectBackNavigation h url hi = false)
    (hf : detectForwardNavigation h url hi = false) :
    (updateTabHistory h url title kind hi now).sessionHistory
      = (handleNewNavigation h url title kind now hi).sessionHistory := by
  simp [updateTabHistory, hb, hf]

theorem update_new_currentIndex (h : TabHistory) (url : String)
    (title : Option String) (kind : String) (hi : NavInfo) (now : Nat)
    (hb : detectBackNavigation h url hi = false)
    (hf : detectForwardNavigation h url hi = false) :
    (updateTabHistory h url title kind hi now).currentIndex
      = (handleNewNavigation h url title kind now hi).currentIndex := by
  simp [updateTabHistory, hb, hf]

theorem update_lastUpdated (h : TabHistory) (url : String)
    (title : Option String) (kind : String) (hi : NavInfo) (now : Nat) :
    (updateTabHistory h url title kind hi now).lastUpdated = now := by
  unfold updateTabHistory
  rw [buildTreeStep_lastUpdated]

/-- C3: Back/forward round trip: starting from a log [A,B,C] with
currentIndex = 2, an update with url = B and canGoBack reported yields
currentIndex = 1 with entries unchanged, and a following update with
url = C and canGoForward reported yields currentIndex = 2 with entries
still unchanged (no entry appended or removed by either step). -/
theorem back_forward_round_trip (eA eB eC : HistoryEntry) (tr0 : TreeNode)
    (lu : Nat) (cl : Bool) (ca : Option Nat) (t1 t2 : Option String)
    (k1 k2 : String) (hi1 hi2 : NavInfo) (n1 n2 : Nat)
    (hAC : eA.url ≠ eC.url) (hb1 : hi1.canGoBack = true)
    (hf2 : hi2.canGoForward = true) :
    (updateTabHistory ⟨[eA, eB, eC], 2, tr0, lu, cl, ca⟩ eB.url t1 k1 hi1 n1).sessionHistory = [eA, eB, eC]
    ∧ (updateTabHistory ⟨[eA, eB, eC], 2, tr0, lu, cl, ca⟩ eB.url t1 k1 hi1 n1).currentIndex = 1
    ∧ (updateTabHistory (updateTabHistory ⟨[eA, eB, eC], 2, tr0, lu, cl, ca⟩ eB.url t1 k1 hi1 n1) eC.url t2 k2 hi2 n2).sessionHistory = [eA, eB, eC]
    ∧ (updateTabHistory (updateTabHistory ⟨[eA, eB, eC], 2, tr0, lu, cl, ca⟩ eB.url t1 k1 hi1 n1) eC.url t2 k2 hi2 n2).currentIndex = 2 := by
  set h0 : TabHistory := ⟨[eA, eB, eC], 2, tr0, lu, cl, ca⟩ with hh0
  have hd1 : detectBackNavigation h0 eB.url hi1 = true := by
    simp [detectBackNavigation, hb1, hh0]
  have hs1 : (updateTabHistory h0 eB.url t1 k1 hi1 n1).sessionHistory = [eA, eB, eC] :=
    update_back_sessionHistory h0 eB.url t1 k1 hi1 n1 hd1
  have hc1 : (updateTabHistory h0 eB.url t1 k1 hi1 n1).currentIndex = 1 :=
    update_back_currentIndex h0 eB.url t1 k1 hi1 n1 hd1
  have hd2 : detectBackNavigation (updateTabHistory h0 eB.url t1 k1 hi1 n1) eC.url hi2 = false := by
    simp [detectBackNavigation, hs1, hc1, hAC]
  have hd2f : detectForwardNavigation (updateTabHistory h0 eB.url t1 k1 hi1 n1) eC.url hi2 = true := by
    simp [detectForwardNavigation, hs1, hc1, hf2]
  refine ⟨hs1, hc1, ?_, ?_⟩
  · rw [update_forward_sessionHistory _ _ _ _ _ _ hd2 hd2f, hs1]
  · rw [update_forward_currentIndex _ _ _ _ _ _ hd2 hd2f, hs1, hc1]
    simp

theorem adjDistinct_cons_cons (a b : HistoryEntry) (l : List HistoryEntry) :
    adjDistinct (a :: b :: l) = ((a.url != b.url) && adjDistinct (b :: l)) := rfl

theorem adjDistinct_single (a : HistoryEntry) : adjDistinct [a] = true := rfl

theorem adjDistinct_cons (x : HistoryEntry) (xs : List HistoryEntry)
    (h : adjDistinct (x :: xs) = true) : adjDistinct xs = true := by
  cases xs with
  | nil => rfl
  | cons y ys =>
    rw [adjDistinct_cons_cons] at h
    exact ((Bool.and_eq_true _ _).mp h).2

theorem adjDistinct_get (l : List HistoryEntry) (i : Nat) (a b : HistoryEntry)
    (hd : adjDistinct l = true) (ha : l[i]? = some a)
    (hb : l[i + 1]? = some b) : a.url ≠ b.url := by
  induction l generalizing i with
  | nil => simp at ha
  | cons x xs ih =>
    cases i with
    | zero =>
      cases xs with
      | nil => simp at hb
      | cons y ys =>
        have hx : x = a := by simpa using ha
        have hy : y = b := by simpa using hb
        rw [adjDistinct_cons_cons] at hd
        have h1 := ((Bool.and_eq_true _ _).mp hd).1
        subst hx; subst hy
        simpa using h1
    | succ j =>
      have ha2 : xs[j]? = some a := by simpa using ha
      have hb2 : xs[j + 1]? = some b := by simpa using hb
      exact ih j (adjDistinct_cons x xs hd) ha2 hb2

theorem adjDistinct_take (l : List HistoryEntry) (n : Nat)
    (h : adjDistinct l = true) : adjDistinct (l.take n) = true := by
  induction l generalizing n with
  | nil => simp [adjDistinct]
  | cons x xs ih =>
    cases n with
    | zero => rfl
    | succ m =>
      cases xs with
      | nil =>
        cases m <;> rfl
      | cons y ys =>
        cases m with
        | zero => rfl
        | succ k =>
          rw [adjDistinct_cons_cons] at h
          obtain ⟨h1, h2⟩ := (Bool.and_eq_true _ _).mp h
          have h3 := ih (n := k + 1) h2
          show adjDistinct (x :: (y :: ys).take (k + 1)) = true
          rw [show ((y :: ys).take (k + 1)) = y :: ys.take k from rfl,
            adjDistinct_cons_cons]
          exact (Bool.and_eq_true _ _).mpr ⟨h1, h3⟩

theorem adjDistinct_concat (l : List HistoryEntry) (e : HistoryEntry)
    (h : adjDistinct l = true)
    (hlast : ∀ x, l.getLast? = some x → x.url ≠ e.url) :
    adjDistinct (l ++ [e]) = true := by
  induction l with
  | nil => rfl
  | cons x xs ih =>
    cases xs with
    | nil =>
      have hx := hlast x (by rfl)
      show adjDistinct (x :: [e]) = true
      rw [adjDistinct_cons_cons]
      simp [hx, adjDistinct_single]
    | cons y ys =>
      rw [adjDistinct_cons_cons] at h
      obtain ⟨h1, h2⟩ := (Bool.and_eq_true _ _).mp h
      have hl : ∀ z, (y :: ys).getLast? = some z → z.url ≠ e.url := by
        intro z hz
        exact hlast z (by rw [List.getLast?_cons_cons]; exact hz)
      have h3 := ih h2 hl
      show adjDistinct (x :: y :: (ys ++ [e])) = true
      rw [adjDistinct_cons_cons]
      exact (Bool.and_eq_true _ _).mpr ⟨h1, h3⟩

theorem getLast_take (l : List HistoryEntry) (i : Nat) (a : HistoryEntry)
    (h : l[i]? = some a) : (l.take (i + 1)).getLast? = some a := by
  rw [List.take_succ, h]
  simp

theorem getElem_lt_of_some {l : List HistoryEntry} {i : Nat} {a : HistoryEntry}
    (h : l[i]? = some a) : i < l.length := by
  by_contra hc
  push_neg at hc
  rw [List.getElem?_eq_none hc] at h
  exact Option.noConfusion h

theorem getElem_some_of_lt (l : List HistoryEntry) (i : Nat)
    (h : i < l.length) : ∃ x, l[i]? = some x :=
  ⟨l.get ⟨i, h⟩, by rw [List.getElem?_eq_getElem h]; rfl⟩

theorem detectBack_false_of_adjDistinct (h : TabHistory) (url : String)
    (hi : NavInfo) (cur : HistoryEntry)
    (had : adjDistinct h.sessionHistory = true)
    (hcur : h.sessionHistory[h.currentIndex]? = some cur)
    (hurl : cur.url = url) :
    detectBackNavigation h url hi = false := by
  have hci : h.currentIndex < h.sessionHistory.length := getElem_lt_of_some hcur
  unfold detectBackNavigation
  by_cases h2 : h.sessionHistory.length < 2
  · simp [h2]
  · simp only [h2, if_false]
    by_cases h3 : 0 < h.currentIndex
    · simp only [h3, if_true]
      obtain ⟨prev, hp⟩ := getElem_some_of_lt h.sessionHistory
        (h.currentIndex - 1) (by omega)
      rw [hp]
      have h4 := adjDistinct_get h.sessionHistory (h.currentIndex - 1) prev cur
        had hp
        (by rw [show h.currentIndex - 1 + 1 = h.currentIndex from by omega]
            exact hcur)
      rw [hurl] at h4
      simp [h4]
    · simp [h3]

theorem detectForward_false_of_adjDistinct (h : TabHistory) (url : String)
    (hi : NavInfo) (cur : HistoryEntry)
    (had : adjDistinct h.sessionHistory = true)
    (hcur : h.sessionHistory[h.currentIndex]? = some cur)
    (hurl : cur.url = url) :
    detectForwardNavigation h url hi = false := by
  unfold detectForwardNavigation
  by_cases h2 : h.sessionHistory.length - 1 ≤ h.currentIndex
  · simp [h2]
  · simp only [h2, if_false]
    obtain ⟨nxt, hp⟩ := getElem_some_of_lt h.sessionHistory
      (h.currentIndex + 1) (by omega)
    rw [hp]
    have h4 := adjDistinct_get h.sessionHistory h.currentIndex cur nxt had hcur hp
    rw [hurl] at h4
    have h5 : nxt.url ≠ url := fun he => h4 he.symm
    simp [h5]

/-- C2 (amended): for every SessionLog with valid currentIndex in which no
two adjacent entries share a url (an invariant of every log the tracker
can reach, see the reachability theorems below), an inbound update whose
url equals the URL of the entry at currentIndex performs no log mutation:
entries and currentIndex are unchanged and only lastUpdatedAt is stamped.
The source checks back/forward before the refresh check, but under the
adjacent-distinctness assumption neither can match such an update, so the
outcome coincides with the spec's refresh-first order. -/
theorem refresh_noop_of_adjDistinct (h : TabHistory) (url : String)
    (title : Option String) (kind : String) (hi : NavInfo) (now : Nat)
    (cur : HistoryEntry)
    (had : adjDistinct h.sessionHistory = true)
    (hcur : h.sessionHistory[h.currentIndex]? = some cur)
    (hurl : cur.url = url) :
    (updateTabHistory h url title kind hi now).sessionHistory = h.sessionHistory
    ∧ (updateTabHistory h url title kind hi now).currentIndex = h.currentIndex
    ∧ (updateTabHistory h url title kind hi now).lastUpdated = now := by
  have hb := detectBack_false_of_adjDistinct h url hi cur had hcur hurl
  have hf := detectForward_false_of_adjDistinct h url hi cur had hcur hurl
  have hnew : handleNewNavigation h url title kind now hi = h := by
    unfold handleNewNavigation
    rw [hcur]
    simp [hurl]
  refine ⟨?_, ?_, update_lastUpdated h url title kind hi now⟩
  · rw [update_new_sessionHistory h url title kind hi now hb hf, hnew]
  · rw [update_new_currentIndex h url title kind hi now hb hf, hnew]

/-- C4: an update classified as a new navigation (not refresh, back or
forward) truncates entries to positions [0..currentIndex] inclusive,
appends one new HistoryEntry built from the update's url/title/kind and
navInfo, and sets currentIndex to the new last index. -/
theorem new_navigation_truncates_appends (h : TabHistory) (url : String)
    (title : Option String) (kind : String) (hi : NavInfo) (now : Nat)
    (cur : HistoryEntry)
    (hb : detectBackNavigation h url hi = false)
    (hf : detectForwardNavigation h url hi = false)
    (hcur : h.sessionHistory[h.currentIndex]? = some cur)
    (hne : cur.url ≠ url) :
    (updateTabHistory h url title kind hi now).sessionHistory
      = h.sessionHistory.take (h.currentIndex + 1)
        ++ [createHistoryEntry url title kind now hi]
    ∧ (updateTabHistory h url title kind hi now).currentIndex
      = h.currentIndex + 1 := by
  have hci : h.currentIndex < h.sessionHistory.length := getElem_lt_of_some hcur
  have htr : (if h.currentIndex < h.sessionHistory.length - 1 then
      h.sessionHistory.take (h.currentIndex + 1) else h.sessionHistory)
      = h.sessionHistory.take (h.currentIndex + 1) := by
    by_cases hlt : h.currentIndex < h.sessionHistory.length - 1
    · simp [hlt]
    · simp only [hlt, if_false]
      rw [show h.currentIndex + 1 = h.sessionHistory.length from by omega,
        List.take_length]
  have hnewS : (handleNewNavigation h url title kind now hi).sessionHistory
      = h.sessionHistory.take (h.currentIndex + 1)
        ++ [createHistoryEntry url title kind now hi] := by
    unfold handleNewNavigation
    rw [hcur]
    simp [beq_eq_false_iff_ne.mpr hne, htr]
  have hnewC : (handleNewNavigation h url title kind now hi).currentIndex
      = h.currentIndex + 1 := by
    unfold handleNewNavigation
    rw [hcur]
    simp [beq_eq_false_iff_ne.mpr hne, htr, List.length_take]
    omega
  exact ⟨by rw [update_new_sessionHistory h url title kind hi now hb hf, hnewS],
    by rw [update_new_currentIndex h url title kind hi now hb hf, hnewC]⟩

/-- Concrete entries for witnesses and counterexamples. -/
def entA : HistoryEntry :=
  ⟨"http://a/", "A", 1, "initial", 1, false, false, none⟩

def entB : HistoryEntry :=
  ⟨"http://b/", "B", 2, "navigation", 2, false, false, none⟩

def entC : HistoryEntry :=
  ⟨"http://c/", "C", 3, "navigation", 3, true, false, none⟩

/-- A second entry sharing entA's url (a revisit of the same page). -/
def entA2 : HistoryEntry :=
  ⟨"http://a/", "A", 4, "navigation", 3, true, false, none⟩

def treeX : TreeNode := createTreeNode entA 0 true

/-- Witness for the back/forward round trip at a concrete log. -/
theorem back_forward_round_trip_witness :
    entA.url ≠ entC.url
    ∧ (updateTabHistory ⟨[entA, entB, entC], 2, treeX, 0, false, none⟩
        entB.url none "navigation" ⟨3, true, true, none⟩ 9).currentIndex = 1
    ∧ (updateTabHistory (updateTabHistory ⟨[entA, entB, entC], 2, treeX, 0, false, none⟩
        entB.url none "navigation" ⟨3, true, true, none⟩ 9)
        entC.url none "navigation" ⟨3, true, true, none⟩ 10).currentIndex = 2 :=
  ⟨by decide,
    (back_forward_round_trip entA entB entC treeX 0 false none none none
      "navigation" "navigation" ⟨3, true, true, none⟩ ⟨3, true, true, none⟩ 9 10
      (by decide) rfl rfl).2.1,
    (back_forward_round_trip entA entB entC treeX 0 false none none none
      "navigation" "navigation" ⟨3, true, true, none⟩ ⟨3, true, true, none⟩ 9 10
      (by decide) rfl rfl).2.2.2⟩

/-- Witness for the amended refresh claim at a concrete log [A,B],
currentIndex 1, update url = B. -/
theorem refresh_noop_witness :
    adjDistinct [entA, entB] = true
    ∧ (updateTabHistory ⟨[entA, entB], 1, treeX, 0, false, none⟩
        entB.url none "navigation" defaultNavInfo 7).sessionHistory = [entA, entB]
    ∧ (updateTabHistory ⟨[entA, entB], 1, treeX, 0, false, none⟩
        entB.url none "navigation" defaultNavInfo 7).currentIndex = 1 :=
  ⟨by decide,
    (refresh_noop_of_adjDistinct ⟨[entA, entB], 1, treeX, 0, false, none⟩
      entB.url none "navigation" defaultNavInfo 7 entB (by decide) rfl rfl).1,
    (refresh_noop_of_adjDistinct ⟨[entA, entB], 1, treeX, 0, false, none⟩
      entB.url none "navigation" defaultNavInfo 7 entB (by decide) rfl rfl).2.1⟩

/-- Counterexample to C2 as stated: on the valid (but unreachable) log
[A, A] with currentIndex 1, an update whose url equals the URL of the
entry at currentIndex and whose navInfo reports canGoBack is classified
as Back by the source (the back check runs before the refresh check) and
mutates currentIndex from 1 to 0. -/
theorem refresh_claim_counterexample :
    ([entA, entA2].get ⟨1, by decide⟩).url = entA.url
    ∧ (updateTabHistory ⟨[entA, entA2], 1, treeX, 0, false, none⟩
        entA.url none "navigation" ⟨3, true, false, none⟩ 7).currentIndex = 0 := by
  constructor
  · decide
  · have hd : detectBackNavigation ⟨[entA, entA2], 1, treeX, 0, false, none⟩
        entA.url ⟨3, true, false, none⟩ = true := by decide
    rw [update_back_currentIndex _ _ _ _ _ _ hd]
    rfl

/-- Witness for the new-navigation claim: from log [A,B,C] with
currentIndex 1, navigating to url "http://d/" yields entries
[A, B, newEntry] (the C branch is discarded) and currentIndex 2. -/
theorem new_navigation_witness :
    (updateTabHistory ⟨[entA, entB, entC], 1, treeX, 0, false, none⟩
      "http://d/" (some "D") "navigation" defaultNavInfo 9).sessionHistory
      = [entA, entB, createHistoryEntry "http://d/" (some "D") "navigation" 9 defaultNavInfo]
    ∧ (updateTabHistory ⟨[entA, entB, entC], 1, treeX, 0, false, none⟩
      "http://d/" (some "D") "navigation" defaultNavInfo 9).currentIndex = 2 :=
  ⟨(new_navigation_truncates_appends ⟨[entA, entB, entC], 1, treeX, 0, false, none⟩
      "http://d/" (some "D") "navigation" defaultNavInfo 9 entB
      (by decide) (by decide) rfl (by decide)).1,
    (new_navigation_truncates_appends ⟨[entA, entB, entC], 1, treeX, 0, false, none⟩
      "http://d/" (some "D") "navigation" defaultNavInfo 9 entB
      (by decide) (by decide) rfl (by decide)).2⟩

/-- Well-formedness of a per-tab log: the current index is in range and no
two adjacent entries share a url. -/
def wfLog (h : TabHistory) : Prop :=
  h.currentIndex < h.sessionHistory.length
  ∧ adjDistinct h.sessionHistory = true

theorem applyUpdate_wf (h : TabHistory) (u : NavUpdate) (hw : wfLog h) :
    wfLog (applyUpdate h u) := by
  obtain ⟨hci, had⟩ := hw
  unfold applyUpdate
  cases hB : detectBackNavigation h u.url u.info with
  | true =>
    refine ⟨?_, ?_⟩
    · rw [update_back_currentIndex _ _ _ _ _ _ hB,
        update_back_sessionHistory _ _ _ _ _ _ hB]
      omega
    · rw [update_back_sessionHistory _ _ _ _ _ _ hB]
      exact had
  | false =>
    cases hF : detectForwardNavigation h u.url u.info with
    | true =>
      refine ⟨?_, ?_⟩
      · rw [update_forward_currentIndex _ _ _ _ _ _ hB hF,
          update_forward_sessionHistory _ _ _ _ _ _ hB hF]
        have h1 := Nat.min_le_left (h.sessionHistory.length - 1) (h.currentIndex + 1)
        omega
      · rw [update_forward_sessionHistory _ _ _ _ _ _ hB hF]
        exact had
    | false =>
      obtain ⟨cur, hcur⟩ := getElem_some_of_lt h.sessionHistory h.currentIndex hci
      by_cases hr : cur.url = u.url
      · have hnew : handleNewNavigation h u.url u.title u.kind u.now u.info = h := by
          unfold handleNewNavigation
          rw [hcur]
          simp [hr]
        refine ⟨?_, ?_⟩
        · rw [update_new_currentIndex _ _ _ _ _ _ hB hF, hnew,
            update_new_sessionHistory _ _ _ _ _ _ hB hF, hnew]
          exact hci
        · rw [update_new_sessionHistory _ _ _ _ _ _ hB hF, hnew]
          exact had
      · obtain ⟨hS, hC⟩ := new_navigation_truncates_appends h u.url u.title
          u.kind u.info u.now cur hB hF hcur hr
        refine ⟨?_, ?_⟩
        · rw [hS, hC, List.length_append, List.length_take]
          simp
          omega
        · rw [hS]
          apply adjDistinct_concat
          · exact adjDistinct_take _ _ had
          · intro x hx
            rw [getLast_take h.sessionHistory h.currentIndex _ hcur] at hx
            have hxeq : x = cur :=
              (Option.some.inj hx).symm
            rw [hxeq]
            exact hr
  
theorem applyUpdates_wf (us : List NavUpdate) (h : TabHistory) (hw : wfLog h) :
    wfLog (applyUpdates h us) := by
  induction us generalizing h with
  | nil => exact hw
  | cons u us ih => exact ih (applyUpdate h u) (applyUpdate_wf h u hw)

theorem initTabHistory_wf (url : String) (title : Option String)
    (ct now : Nat) : wfLog (initTabHistory url title ct now) :=
  ⟨Nat.zero_lt_one, rfl⟩

/-- C6: starting from an initialized log (one entry, currentIndex = 0),
after any sequence of refresh/back/forward/new-navigation updates the
entries list is non-empty and 0 <= currentIndex < len(entries). -/
theorem updates_preserve_wellformed (url : String) (title : Option String)
    (ct now : Nat) (us : List NavUpdate) :
    (applyUpdates (initTabHistory url title ct now) us).sessionHistory ≠ []
    ∧ (applyUpdates (initTabHistory url title ct now) us).currentIndex
      < (applyUpdates (initTabHistory url title ct now) us).sessionHistory.length := by
  have hw := applyUpdates_wf us (initTabHistory url title ct now)
    (initTabHistory_wf url title ct now)
  refine ⟨?_, hw.1⟩
  have h1 : 0 < (applyUpdates (initTabHistory url title ct now) us).sessionHistory.length := by
    have h2 := hw.1
    omega
  exact List.length_pos.mp h1

/-- C9: in every SessionLog reachable from initialization via
updateTabHistory, no two adjacent entries have equal url strings: the
refresh check suppresses appending a duplicate of the current entry,
truncation keeps a prefix, and back/forward never touch entries.  This is
the invariant under which the code's back-before-refresh check order
coincides with the spec's refresh-first order. -/
theorem updates_preserve_adjacent_distinct (url : String)
    (title : Option String) (ct now : Nat) (us : List NavUpdate) :
    adjDistinct (applyUpdates (initTabHistory url title ct now) us).sessionHistory = true :=
  (applyUpdates_wf us (initTabHistory url title ct now)
    (initTabHistory_wf url title ct now)).2

theorem lookupA_setA_self {α : Type} (l : List (Nat × α)) (k : Nat) (v : α) :
    lookupA (setA l k v) k = some v := by
  induction l with
  | nil => simp [setA, lookupA]
  | cons p rest ih =>
    obtain ⟨k1, w⟩ := p
    by_cases hk : k1 = k
    · simp [setA, lookupA, hk]
    · simp [setA, lookupA, hk, ih]

theorem lookupA_eraseA_ne {α : Type} (l : List (Nat × α)) (k k2 : Nat)
    (hne : k2 ≠ k) : lookupA (eraseA l k) k2 = lookupA l k2 := by
  induction l with
  | nil => rfl
  | cons p rest ih =>
    obtain ⟨k1, w⟩ := p
    by_cases hk : k1 = k
    · subst hk
      simp only [eraseA, lookupA,
        if_neg (fun he : k1 = k2 => hne he.symm)]
      simp
    · simp [eraseA, lookupA, hk, ih]

theorem lookupA_eraseA_self {α : Type} (l : List (Nat × α)) (k : Nat)
    (hnd : (l.map Prod.fst).Nodup) : lookupA (eraseA l k) k = none := by
  induction l with
  | nil => rfl
  | cons p rest ih =>
    obtain ⟨k1, w⟩ := p
    simp only [List.map_cons, List.nodup_cons] at hnd
    by_cases hk : k1 = k
    · subst hk
      simp only [eraseA, if_pos rfl]
      clear ih
      induction rest with
      | nil => rfl
      | cons q rs ih2 =>
        obtain ⟨k2, w2⟩ := q
        simp only [List.map_cons, List.mem_cons, List.nodup_cons] at hnd
        have hne : k2 ≠ k1 := fun he => hnd.1 (Or.inl he.symm)
        simp only [lookupA, if_neg (fun he : k2 = k1 => hne he)]
        exact ih2 ⟨fun hm => hnd.1 (Or.inr hm), hnd.2.2⟩
    · simp only [eraseA, if_neg hk, lookupA, if_neg hk]
      exact ih hnd.2

/-- C7: closing a tracked tab moves its record into the closed retention
set with entries, currentIndex and tree untouched (only closedAt and
isClosed are set), removes it from the active set leaving every other
active record in place; and clearClosedTabs empties only the closed set,
leaving the active records and creation times of any tracker state
unchanged. -/
theorem handleTabClose_moves_record (tr : Tracker) (tabId now : Nat)
    (th : TabHistory)
    (hnd : (tr.tabHistories.map Prod.fst).Nodup)
    (hl : lookupA tr.tabHistories tabId = some th) :
    lookupA (handleTabClose tr tabId now).closedTabHistories tabId
      = some { th with closedAt := some now, isClosed := true }
    ∧ ({ th with closedAt := some now, isClosed := true } : TabHistory).sessionHistory
      = th.sessionHistory
    ∧ ({ th with closedAt := some now, isClosed := true } : TabHistory).currentIndex
      = th.currentIndex
    ∧ ({ th with closedAt := some now, isClosed := true } : TabHistory).tree = th.tree
    ∧ lookupA (handleTabClose tr tabId now).tabHistories tabId = none
    ∧ (∀ id2, id2 ≠ tabId →
        lookupA (handleTabClose tr tabId now).tabHistories id2
          = lookupA tr.tabHistories id2)
    ∧ (∀ tr2 : Tracker, (clearClosedTabs tr2).closedTabHistories = []
        ∧ (clearClosedTabs tr2).tabHistories = tr2.tabHistories
        ∧ (clearClosedTabs tr2).tabCreationTimes = tr2.tabCreationTimes) := by
  have hmain : handleTabClose tr tabId now =
      { tr with
        closedTabHistories := setA tr.closedTabHistories tabId { th with closedAt := some now, isClosed := true },
        tabHistories := eraseA tr.tabHistories tabId,
        tabCreationTimes := eraseA tr.tabCreationTimes tabId } := by
    unfold handleTabClose
    rw [hl]
  refine ⟨?_, rfl, rfl, rfl, ?_, ?_, ?_⟩
  · rw [hmain]
    exact lookupA_setA_self tr.closedTabHistories tabId _
  · rw [hmain]
    exact lookupA_eraseA_self tr.tabHistories tabId hnd
  · intro id2 hne
    rw [hmain]
    exact lookupA_eraseA_ne tr.tabHistories tabId id2 hne
  · intro tr2
    exact ⟨rfl, rfl, rfl⟩

/-- Witness for the tab-closure claim at a concrete tracker holding one
active record. -/
theorem handleTabClose_moves_record_witness :
    ((([(5, (⟨[entA], 0, treeX, 0, false, none⟩ : TabHistory))].map Prod.fst).Nodup)
      ∧ lookupA [(5, (⟨[entA], 0, treeX, 0, false, none⟩ : TabHistory))] 5
          = some ⟨[entA], 0, treeX, 0, false, none⟩)
    ∧ lookupA (handleTabClose ⟨[(5, ⟨[entA], 0, treeX, 0, false, none⟩)], [], [(5, 0)]⟩ 5 9).closedTabHistories 5
        = some ⟨[entA], 0, treeX, 0, true, some 9⟩
    ∧ lookupA (handleTabClose ⟨[(5, ⟨[entA], 0, treeX, 0, false, none⟩)], [], [(5, 0)]⟩ 5 9).tabHistories 5
        = none := by
  refine ⟨⟨by simp, rfl⟩, ?_, ?_⟩
  · exact (handleTabClose_moves_record
      ⟨[(5, ⟨[entA], 0, treeX, 0, false, none⟩)], [], [(5, 0)]⟩ 5 9
      ⟨[entA], 0, treeX, 0, false, none⟩ (by simp) rfl).1
  · exact (handleTabClose_moves_record
      ⟨[(5, ⟨[entA], 0, treeX, 0, false, none⟩)], [], [(5, 0)]⟩ 5 9
      ⟨[entA], 0, treeX, 0, false, none⟩ (by simp) rfl).2.2.2.2.1

/-- C8 (amended): for every HistoryEntry created with an absent (missing
or empty) title, when the entry's URL has a host component (the platform
URL parser succeeds), the stored title equals that host component; when
the parser fails the source's catch branch stores the full URL string
instead. -/
theorem createHistoryEntry_title_host (url : String) (title : Option String)
    (kind : String) (ts : Nat) (hi : NavInfo) (hst : String)
    (habs : title = none ∨ title = some "")
    (hp : parsedHost url = some hst) :
    (createHistoryEntry url title kind ts hi).title = hst := by
  unfold createHistoryEntry getDomainFromUrl
  rcases habs with h | h <;> subst h <;> simp [hp]

/-- Counterexample to C8 as stated: the url "http:" passes the tracker's
isValidUrl filter yet has no host component (the platform parser throws
on it), and the entry stores the full URL string as title, so the stored
title cannot equal the host component of the entry's URL. -/
theorem createHistoryEntry_title_cex :
    parsedHost "http:" = none
    ∧ (createHistoryEntry "http:" none "navigation" 1 defaultNavInfo).title = "http:"
    ∧ ¬ ∃ hst, parsedHost "http:" = some hst
        ∧ (createHistoryEntry "http:" none "navigation" 1 defaultNavInfo).title = hst := by
  refine ⟨by decide, by decide, ?_⟩
  rintro ⟨hst, hp, _⟩
  rw [show parsedHost "http:" = none from by decide] at hp
  exact Option.noConfusion hp

/-- Witness for the amended title-fallback claim at a concrete parseable
URL. -/
theorem createHistoryEntry_title_host_witness :
    parsedHost "http://example.com/page" = some "example.com"
    ∧ (createHistoryEntry "http://example.com/page" none "navigation" 1
        defaultNavInfo).title = "example.com" :=
  ⟨by decide,
    createHistoryEntry_title_host "http://example.com/page" none "navigation"
      1 defaultNavInfo "example.com" (Or.inl rfl) (by decide)⟩

theorem countCurL_append (a b : List TreeNode) :
    countCurL (a ++ b) = countCurL a + countCurL b := by
  induction a with
  | nil => simp [countCurL]
  | cons t ts ih => simp [countCurL, ih]; omega

theorem frameToNode_countCur (f : Frame) :
    countCur (frameToNode f) = frameCur f := by
  simp [frameToNode, countCur, frameCur]

theorem collapseList_eq_nil_of_none (fs : List Frame)
    (h : collapseList fs = none) : fs = [] := by
  cases fs with
  | nil => rfl
  | cons f rest =>
    unfold collapseList at h
    cases hr : collapseList rest <;> rw [hr] at h <;> simp at h

theorem collapseList_countCur (fs : List Frame) (t : TreeNode)
    (h : collapseList fs = some t) : countCur t = framesCur fs := by
  induction fs generalizing t with
  | nil => simp [collapseList] at h
  | cons f rest ih =>
    unfold collapseList at h
    cases hr : collapseList rest with
    | none =>
      rw [hr] at h
      have ht : t = frameToNode f := (Option.some.inj h).symm
      have hrest : rest = [] := collapseList_eq_nil_of_none rest hr
      subst ht; subst hrest
      simp [frameToNode_countCur, framesCur]
    | some n =>
      rw [hr] at h
      have ht : t = frameToNode { f with children := f.children ++ [n] } :=
        (Option.some.inj h).symm
      subst ht
      rw [frameToNode_countCur]
      have hn := ih n hr
      simp [frameCur, framesCur, countCurL_append, countCurL, hn]
      omega

theorem findIdxA_lt {α : Type} (pred : α → Bool) (l : List α) (p : Nat)
    (h : findIdxA pred l = some p) : p < l.length := by
  induction l generalizing p with
  | nil => simp [findIdxA] at h
  | cons a as ih =>
    unfold findIdxA at h
    by_cases hp : pred a = true
    · rw [if_pos hp] at h
      have : p = 0 := (Option.some.inj h).symm
      subst this
      simp
    · rw [if_neg hp] at h
      obtain ⟨q, hq, hpq⟩ := Option.map_eq_some'.mp h
      have := ih q hq
      simp only [List.length_cons]
      omega

theorem attachLast_length (fs : List Frame) (n : TreeNode) :
    (attachLast fs n).length = fs.length := by
  induction fs with
  | nil => rfl
  | cons f rest ih =>
    cases rest with
    | nil => rfl
    | cons g rs => simp only [attachLast, List.length_cons] at ih ⊢; omega

theorem setFlags_length (fs : List Frame) (idx p : Nat) (c : Bool) :
    (setFlags fs idx p c).length = fs.length := by
  induction fs generalizing idx with
  | nil => rfl
  | cons f rest ih => simp only [setFlags, List.length_cons, ih]

theorem framesCur_append (a b : List Frame) :
    framesCur (a ++ b) = framesCur a + framesCur b := by
  induction a with
  | nil => simp [framesCur]
  | cons f fs ih => simp [framesCur, ih]; omega

theorem childSum_append (a b : List Frame) :
    childSum (a ++ b) = childSum a + childSum b := by
  induction a with
  | nil => simp [childSum]
  | cons f fs ih => simp [childSum, ih]; omega

theorem childSum_le_framesCur (fs : List Frame) :
    childSum fs ≤ framesCur fs := by
  induction fs with
  | nil => exact Nat.le_refl 0
  | cons f rest ih =>
    simp only [childSum, framesCur]
    have h2 : countCurL f.children ≤ frameCur f := by
      show countCurL f.children ≤ (if f.isCurrent then 1 else 0) + countCurL f.children
      cases f.isCurrent <;> simp
    omega

theorem attachLast_childSum (fs : List Frame) (n : TreeNode) (hne : fs ≠ []) :
    childSum (attachLast fs n) = childSum fs + countCur n := by
  induction fs with
  | nil => exact absurd rfl hne
  | cons f rest ih =>
    cases rest with
    | nil => simp [attachLast, childSum, countCurL_append, countCurL]
    | cons g rs =>
      simp only [attachLast, childSum, ih (List.cons_ne_nil g rs)]
      omega

theorem setFlags_childSum (fs : List Frame) (idx p : Nat) (c : Bool) :
    childSum (setFlags fs idx p c) = childSum fs := by
  induction fs generalizing idx with
  | nil => rfl
  | cons f rest ih => simp only [setFlags, childSum, ih]

theorem setFlags_false_framesCur (fs : List Frame) (idx p : Nat) :
    framesCur (setFlags fs idx p false) = childSum fs := by
  induction fs generalizing idx with
  | nil => rfl
  | cons f rest ih =>
    simp only [setFlags, framesCur, frameCur, Bool.and_false, childSum, ih]
    simp

theorem setFlags_true_framesCur (fs : List Frame) (idx p : Nat)
    (hne : fs ≠ []) (hlen : idx + fs.length = p + 1) :
    framesCur (setFlags fs idx p true) = childSum fs + 1 := by
  induction fs generalizing idx with
  | nil => exact absurd rfl hne
  | cons f rest ih =>
    cases rest with
    | nil =>
      have hip : idx = p := by simp at hlen; omega
      subst hip
      simp [setFlags, framesCur, frameCur, childSum]
      omega
    | cons g rs =>
      have hip : idx ≠ p := by simp at hlen; omega
      have h1 : (idx == p) = false := beq_eq_false_iff_ne.mpr hip
      have h2 := ih (idx + 1) (List.cons_ne_nil g rs) (by simp at hlen ⊢; omega)
      have e1 : framesCur (setFlags (f :: g :: rs) idx p true)
          = frameCur { f with isCurrent := (idx == p && true) }
            + framesCur (setFlags (g :: rs) (idx + 1) p true) := rfl
      rw [e1, h2, h1]
      have e2 : frameCur { f with isCurrent := (false && true) }
          = countCurL f.children := by
        simp [frameCur]
      rw [e2]
      have e3 : childSum (f :: g :: rs)
          = countCurL f.children + childSum (g :: rs) := rfl
      rw [e3]
      omega

theorem stepFrame_framesCur_le (fs : List Frame) (e : HistoryEntry) :
    framesCur (stepFrame fs e false) ≤ framesCur fs := by
  cases hfi : findIdxA (fun f => f.entry.url == e.url) fs with
  | none =>
    simp only [stepFrame, hfi, framesCur_append]
    have h1 : framesCur [(⟨e, [], fs.length, false⟩ : Frame)] = 0 := rfl
    rw [h1]
    omega
  | some p =>
    have hp := findIdxA_lt _ fs p hfi
    have hsplit : framesCur fs
        = framesCur (fs.take (p + 1)) + framesCur (fs.drop (p + 1)) := by
      rw [← framesCur_append, List.take_append_drop]
    cases hc : collapseList (fs.drop (p + 1)) with
    | none =>
      simp only [stepFrame, hfi, hc]
      rw [setFlags_false_framesCur]
      have h2 := childSum_le_framesCur (fs.take (p + 1))
      omega
    | some sub =>
      simp only [stepFrame, hfi, hc]
      rw [setFlags_false_framesCur]
      have hkne : fs.take (p + 1) ≠ [] := by
        have h1 : 0 < (fs.take (p + 1)).length := by
          rw [List.length_take]
          omega
        exact List.length_pos.mp h1
      rw [attachLast_childSum _ _ hkne]
      have hsub := collapseList_countCur _ sub hc
      have h2 := childSum_le_framesCur (fs.take (p + 1))
      omega

theorem stepFrame_framesCur_one (fs : List Frame) (e : HistoryEntry)
    (h0 : framesCur fs = 0) : framesCur (stepFrame fs e true) = 1 := by
  cases hfi : findIdxA (fun f => f.entry.url == e.url) fs with
  | none =>
    simp only [stepFrame, hfi, framesCur_append]
    have h1 : framesCur [(⟨e, [], fs.length, true⟩ : Frame)] = 1 := rfl
    rw [h1, h0]
  | some p =>
    have hp := findIdxA_lt _ fs p hfi
    have hsplit : framesCur fs
        = framesCur (fs.take (p + 1)) + framesCur (fs.drop (p + 1)) := by
      rw [← framesCur_append, List.take_append_drop]
    have hklen : (fs.take (p + 1)).length = p + 1 := by
      rw [List.length_take]
      omega
    have hkne : fs.take (p + 1) ≠ [] := by
      have h1 : 0 < (fs.take (p + 1)).length := by omega
      exact List.length_pos.mp h1
    have h2 := childSum_le_framesCur (fs.take (p + 1))
    cases hc : collapseList (fs.drop (p + 1)) with
    | none =>
      simp only [stepFrame, hfi, hc]
      rw [setFlags_true_framesCur _ 0 p hkne (by omega)]
      omega
    | some sub =>
      simp only [stepFrame, hfi, hc]
      have halen : (attachLast (fs.take (p + 1)) sub).length = p + 1 := by
        rw [attachLast_length, hklen]
      have hane : attachLast (fs.take (p + 1)) sub ≠ [] := by
        intro he
        rw [he] at halen
        simp at halen
      rw [setFlags_true_framesCur _ 0 p hane (by omega)]
      rw [attachLast_childSum _ _ hkne]
      have hsub := collapseList_countCur _ sub hc
      omega

theorem processEntries_cur_le (es : List HistoryEntry) :
    ∀ (i ci : Nat) (fs : List Frame), ci < i →
      framesCur (processEntries es i ci fs) ≤ framesCur fs := by
  induction es with
  | nil =>
    intro i ci fs hlt
    exact Nat.le_refl _
  | cons e es ih =>
    intro i ci fs hlt
    have hne : (i == ci) = false := beq_eq_false_iff_ne.mpr (by omega)
    show framesCur (processEntries es (i + 1) ci (stepFrame fs e (i == ci))) ≤ _
    rw [hne]
    exact Nat.le_trans (ih (i + 1) ci _ (by omega)) (stepFrame_framesCur_le fs e)

theorem processEntries_cur_le_one (es : List HistoryEntry) :
    ∀ (i ci : Nat) (fs : List Frame), framesCur fs = 0 → i ≤ ci →
      framesCur (processEntries es i ci fs) ≤ 1 := by
  induction es with
  | nil =>
    intro i ci fs h0 hle
    show framesCur fs ≤ 1
    omega
  | cons e es ih =>
    intro i ci fs h0 hle
    show framesCur (processEntries es (i + 1) ci (stepFrame fs e (i == ci))) ≤ 1
    by_cases hic : i = ci
    · subst hic
      rw [show (i == i) = true from beq_self_eq_true i]
      have h1 := stepFrame_framesCur_one fs e h0
      have h2 := processEntries_cur_le es (i + 1) i (stepFrame fs e true) (by omega)
      omega
    · rw [show (i == ci) = false from beq_eq_false_iff_ne.mpr hic]
      have h1 := stepFrame_framesCur_le fs e
      exact ih (i + 1) ci _ (by omega) (by omega)

theorem processEntries_cur_exact (es : List HistoryEntry) :
    ∀ (i ci : Nat) (fs : List Frame), framesCur fs = 0 → i ≤ ci →
      i + es.length = ci + 1 →
      framesCur (processEntries es i ci fs) = 1 := by
  induction es with
  | nil =>
    intro i ci fs h0 hle hlen
    exfalso
    simp at hlen
    omega
  | cons e es ih =>
    intro i ci fs h0 hle hlen
    show framesCur (processEntries es (i + 1) ci (stepFrame fs e (i == ci))) = 1
    by_cases hic : i = ci
    · subst hic
      have hes : es = [] := by
        rw [List.length_cons] at hlen
        exact List.eq_nil_of_length_eq_zero (by omega)
      subst hes
      rw [show (i == i) = true from beq_self_eq_true i]
      exact stepFrame_framesCur_one fs e h0
    · rw [show (i == ci) = false from beq_eq_false_iff_ne.mpr hic]
      have h1 := stepFrame_framesCur_le fs e
      have h2 : framesCur (stepFrame fs e false) = 0 := by omega
      have h3 : i + 1 ≤ ci := by omega
      have h4 : i + 1 + es.length = ci + 1 := by
        rw [List.length_cons] at hlen
        omega
      exact ih (i + 1) ci _ h2 h3 h4

/-- C1 (amended): after any rebuild with valid currentIndex, at most one
node of the resulting tree has isCurrent = true, and exactly one —
the node at which the walk placed the entry at currentIndex — whenever
currentIndex is the last index (the state every new navigation leaves the
log in).  When a later entry revisits the url of a node at or before the
current node on the branch, the truncation pass overwrites that flag and
the rebuilt tree can carry zero current nodes (see the counterexample). -/
theorem buildTree_atMostOne_current (entries : List HistoryEntry) (ci : Nat)
    (t : TreeNode) (hci : ci < entries.length)
    (hb : buildTree entries ci = some t) :
    countCur t ≤ 1 ∧ (ci = entries.length - 1 → countCur t = 1) := by
  cases entries with
  | nil => simp at hci
  | cons e0 rest =>
    unfold buildTree at hb
    have hcc := collapseList_countCur _ t hb
    cases ci with
    | zero =>
      have hF0 : framesCur [(⟨e0, [], 0, ((0 : Nat) == 0 : Bool)⟩ : Frame)] = 1 := rfl
      constructor
      · rw [hcc]
        have h1 := processEntries_cur_le rest 1 0
          [(⟨e0, [], 0, ((0 : Nat) == 0 : Bool)⟩ : Frame)] (by omega)
        omega
      · intro hlast
        have hrest : rest = [] := by
          rw [List.length_cons] at hlast
          exact List.eq_nil_of_length_eq_zero (by omega)
        subst hrest
        rw [hcc]
        exact hF0
    | succ c =>
      have hF0 : framesCur [(⟨e0, [], 0, ((c + 1 : Nat) == 0 : Bool)⟩ : Frame)] = 0 := rfl
      constructor
      · rw [hcc]
        exact processEntries_cur_le_one rest 1 (c + 1) _ hF0 (by omega)
      · intro hlast
        rw [hcc]
        apply processEntries_cur_exact rest 1 (c + 1) _ hF0 (by omega)
        rw [List.length_cons] at hlast
        omega

/-- Witness for the amended single-current claim on a one-entry log. -/
theorem buildTree_atMostOne_current_witness :
    (0 < ([entA] : List HistoryEntry).length
      ∧ buildTree [entA] 0 = some (createTreeNode entA 0 true))
    ∧ countCur (createTreeNode entA 0 true) = 1 :=
  ⟨⟨by decide, rfl⟩,
    (buildTree_atMostOne_current [entA] 0 (createTreeNode entA 0 true)
      (by decide) rfl).2 rfl⟩

/-- The navigation events A → B → A (back-detection unavailable, so A is
appended a second time), then back to B, then back to A: a sequence the
tracker can receive, leaving the log [A, B, A] with currentIndex 0. -/
def cexSeq : List NavUpdate :=
  [⟨"http://b/", some "B", "navigation", ⟨2, false, false, none⟩, 2⟩,
   ⟨"http://a/", some "A", "navigation", ⟨3, false, false, none⟩, 3⟩,
   ⟨"http://b/", some "B", "navigation", ⟨3, true, true, none⟩, 4⟩,
   ⟨"http://a/", some "A", "navigation", ⟨3, true, true, none⟩, 5⟩]

/-- Counterexample to C1 as stated: the log [A, B, A] with currentIndex 0
is reachable from initialization (navigate to B, revisit A with
canGoBack unreported so a new entry is appended, then two detected back
steps), its currentIndex is valid, yet the rebuilt tree contains zero
nodes with isCurrent = true: processing the revisited A truncates the
branch to the root and overwrites the root's flag with
(i == currentIndex) = false. -/
theorem buildTree_current_zero_cex :
    (applyUpdates (initTabHistory "http://a/" (some "A") 0 1) cexSeq).sessionHistory.map
        (fun e => e.url) = ["http://a/", "http://b/", "http://a/"]
    ∧ (applyUpdates (initTabHistory "http://a/" (some "A") 0 1) cexSeq).currentIndex = 0
    ∧ (buildTree
        (applyUpdates (initTabHistory "http://a/" (some "A") 0 1) cexSeq).sessionHistory
        (applyUpdates (initTabHistory "http://a/" (some "A") 0 1) cexSeq).currentIndex).map
        countCur = some 0 := by
  decide

theorem levelsOKL_append (a b : List TreeNode) (d : Nat) :
    levelsOKL (a ++ b) d = (levelsOKL a d && levelsOKL b d) := by
  induction a with
  | nil => simp [levelsOKL]
  | cons t ts ih => simp [levelsOKL, ih, Bool.and_assoc]

theorem collapseList_levelsOK (fs : List Frame) (d : Nat) (t : TreeNode)
    (hlev : framesLev fs d = true) (hc : collapseList fs = some t) :
    levelsOK t d = true := by
  induction fs generalizing d t with
  | nil => simp [collapseList] at hc
  | cons f rest ih =>
    have hsplit : framesLev (f :: rest) d
        = (frameLevOK f d && framesLev rest (d + 1)) := rfl
    rw [hsplit] at hlev
    obtain ⟨h1, h2⟩ := (Bool.and_eq_true _ _).mp hlev
    unfold collapseList at hc
    cases hr : collapseList rest with
    | none =>
      rw [hr] at hc
      have ht : t = frameToNode f := (Option.some.inj hc).symm
      subst ht
      exact h1
    | some n =>
      rw [hr] at hc
      have ht : t = frameToNode { f with children := f.children ++ [n] } :=
        (Option.some.inj hc).symm
      subst ht
      have hn := ih (d + 1) n h2 hr
      show ((f.level == d) && levelsOKL (f.children ++ [n]) (d + 1)) = true
      rw [levelsOKL_append]
      have h3 : levelsOKL [n] (d + 1) = true := by
        show (levelsOK n (d + 1) && true) = true
        rw [hn]
        rfl
      have h4 := (Bool.and_eq_true _ _).mp h1
      refine (Bool.and_eq_true _ _).mpr ⟨h4.1, ?_⟩
      exact (Bool.and_eq_true _ _).mpr ⟨h4.2, h3⟩

theorem framesLev_take (n : Nat) (fs : List Frame) (d : Nat)
    (h : framesLev fs d = true) : framesLev (fs.take n) d = true := by
  induction fs generalizing n d with
  | nil => simp [framesLev]
  | cons f rest ih =>
    cases n with
    | zero => rfl
    | succ m =>
      have hsplit : framesLev (f :: rest) d
          = (frameLevOK f d && framesLev rest (d + 1)) := rfl
      rw [hsplit] at h
      obtain ⟨h1, h2⟩ := (Bool.and_eq_true _ _).mp h
      show (frameLevOK f d && framesLev (rest.take m) (d + 1)) = true
      exact (Bool.and_eq_true _ _).mpr ⟨h1, ih m (d + 1) h2⟩

theorem framesLev_drop (n : Nat) (fs : List Frame) (d : Nat)
    (h : framesLev fs d = true) : framesLev (fs.drop n) (d + n) = true := by
  induction fs generalizing n d with
  | nil => simp [framesLev]
  | cons f rest ih =>
    cases n with
    | zero => exact h
    | succ m =>
      have hsplit : framesLev (f :: rest) d
          = (frameLevOK f d && framesLev rest (d + 1)) := rfl
      rw [hsplit] at h
      obtain ⟨h1, h2⟩ := (Bool.and_eq_true _ _).mp h
      have h3 := ih m (d + 1) h2
      rw [show d + (m + 1) = d + 1 + m from by omega]
      exact h3

theorem framesLev_append (a b : List Frame) (d : Nat) :
    framesLev (a ++ b) d = (framesLev a d && framesLev b (d + a.length)) := by
  induction a generalizing d with
  | nil => simp [framesLev]
  | cons f rest ih =>
    show (frameLevOK f d && framesLev (rest ++ b) (d + 1))
      = ((frameLevOK f d && framesLev rest (d + 1)) && framesLev b (d + (rest.length + 1)))
    rw [ih (d + 1), show d + (rest.length + 1) = d + 1 + rest.length from by omega,
      Bool.and_assoc]

theorem attachLast_framesLev (fs : List Frame) (n : TreeNode) (d : Nat)
    (hne : fs ≠ []) (h : framesLev fs d = true)
    (hn : levelsOK n (d + fs.length) = true) :
    framesLev (attachLast fs n) d = true := by
  induction fs generalizing d with
  | nil => exact absurd rfl hne
  | cons f rest ih =>
    have hsplit : framesLev (f :: rest) d
        = (frameLevOK f d && framesLev rest (d + 1)) := rfl
    rw [hsplit] at h
    obtain ⟨h1, h2⟩ := (Bool.and_eq_true _ _).mp h
    cases rest with
    | nil =>
      show (frameLevOK { f with children := f.children ++ [n] } d && true) = true
      have h3 : levelsOK n (d + 1) = true := by
        rw [show d + 1 = d + ([f] : List Frame).length from by simp] 
        exact hn
      show (((f.level == d) && levelsOKL (f.children ++ [n]) (d + 1)) && true) = true
      rw [levelsOKL_append]
      have h4 := (Bool.and_eq_true _ _).mp h1
      have h5 : levelsOKL [n] (d + 1) = true := by
        show (levelsOK n (d + 1) && true) = true
        rw [h3]
        rfl
      rw [h4.1, h4.2, h5]
      rfl
    | cons g rs =>
      show (frameLevOK f d && framesLev (attachLast (g :: rs) n) (d + 1)) = true
      have h3 : levelsOK n (d + 1 + (g :: rs).length) = true := by
        rw [show d + 1 + (g :: rs).length = d + (f :: g :: rs).length from by
          simp; omega]
        exact hn
      exact (Bool.and_eq_true _ _).mpr
        ⟨h1, ih (d + 1) (List.cons_ne_nil g rs) h2 h3⟩

theorem setFlags_framesLev (fs : List Frame) (idx p : Nat) (c : Bool) (d : Nat) :
    framesLev (setFlags fs idx p c) d = framesLev fs d := by
  induction fs generalizing idx d with
  | nil => rfl
  | cons f rest ih =>
    show (frameLevOK { f with isCurrent := idx == p && c } d
        && framesLev (setFlags rest (idx + 1) p c) (d + 1))
      = (frameLevOK f d && framesLev rest (d + 1))
    rw [ih (idx + 1) (d + 1)]
    rfl

theorem stepFrame_framesLev (fs : List Frame) (e : HistoryEntry) (c : Bool)
    (h : framesLev fs 0 = true) : framesLev (stepFrame fs e c) 0 = true := by
  cases hfi : findIdxA (fun f => f.entry.url == e.url) fs with
  | none =>
    simp only [stepFrame, hfi]
    rw [framesLev_append]
    have h1 : framesLev [(⟨e, [], fs.length, c⟩ : Frame)] (0 + fs.length) = true := by
      show ((((fs.length : Nat) == 0 + fs.length) && levelsOKL [] (0 + fs.length + 1))
        && true) = true
      simp [levelsOKL]
    rw [h, h1]
    rfl
  | some p =>
    have hp := findIdxA_lt _ fs p hfi
    have htake := framesLev_take (p + 1) fs 0 h
    have hklen : (fs.take (p + 1)).length = p + 1 := by
      rw [List.length_take]
      omega
    have hkne : fs.take (p + 1) ≠ [] := by
      have h1 : 0 < (fs.take (p + 1)).length := by omega
      exact List.length_pos.mp h1
    cases hc2 : collapseList (fs.drop (p + 1)) with
    | none =>
      simp only [stepFrame, hfi, hc2]
      rw [setFlags_framesLev]
      exact htake
    | some sub =>
      have hdrop := framesLev_drop (p + 1) fs 0 h
      have hsub : levelsOK sub (0 + (p + 1)) = true :=
        collapseList_levelsOK _ _ sub hdrop hc2
      simp only [stepFrame, hfi, hc2]
      rw [setFlags_framesLev]
      apply attachLast_framesLev _ _ 0 hkne htake
      rw [hklen]
      exact hsub

theorem processEntries_framesLev (es : List HistoryEntry) :
    ∀ (i ci : Nat) (fs : List Frame), framesLev fs 0 = true →
      framesLev (processEntries es i ci fs) 0 = true := by
  induction es with
  | nil =>
    intro i ci fs h
    exact h
  | cons e es ih =>
    intro i ci fs h
    exact ih (i + 1) ci _ (stepFrame_framesLev fs e (i == ci) h)

/-- C10: in every tree produced by buildTreeFromSessionHistory, every
node's level field equals its distance from the root in the final tree:
the root carries level 0 and every child's level is its parent's level
plus one, including for nodes reused by branch truncation (levelsOK
checks exactly this, depth-first from the root at 0). -/
theorem buildTree_levels_correct (entries : List HistoryEntry) (ci : Nat)
    (t : TreeNode) (hb : buildTree entries ci = some t) :
    levelsOK t 0 = true := by
  cases entries with
  | nil => simp [buildTree] at hb
  | cons e0 rest =>
    unfold buildTree at hb
    apply collapseList_levelsOK _ 0 t ?_ hb
    apply processEntries_framesLev
    rfl

/-- A second visit of entB's url, used to exercise branch reuse. -/
def entB2 : HistoryEntry :=
  ⟨"http://b/", "B", 5, "navigation", 3, true, false, none⟩

/-- Witness for the level-correctness claim on the branching log
[A, B, C, B] (the last entry reuses the branch node of B). -/
theorem buildTree_levels_correct_witness :
    (buildTree [entA, entB, entC, entB2] 3).map (fun t => levelsOK t 0)
      = some true := by
  have hs : (buildTree [entA, entB, entC, entB2] 3).isSome = true := by decide
  cases hb : buildTree [entA, entB, entC, entB2] 3 with
  | none =>
    rw [hb] at hs
    simp at hs
  | some t =>
    simp [buildTree_levels_correct [entA, entB, entC, entB2] 3 t hb]
